import Mathlib

/-!
Verification of the shader binary-dump store of `shadersBinaryData.h`
(NauEnginePublic, `engine/core/modules/render/src/shaders/`).

The header declares `ScriptedShadersBinDumpOwner` with a bounded LRU cache of
decompressed bytecode groups (`eastl::lru_cache<uint16_t, DecompressedGroup>`),
versioned parsed views (`ScriptedShadersBinDump` / `V2` / `V3`), loading
(`load` / `loadData`), clearing (`clear`) and bytecode retrieval
(`getCode(id, ShaderCodeType, tmpbuf)`).  The inline member bodies and the
`ShaderCodeType` enum are embedded from the header; the out-of-line members
(`load`, `loadData`, `clear`, `getCode` and the cache operations) are not part
of the excerpt and are modelled from the specification, as marked on each
definition.
-/

namespace ShadersBinaryDump

/-- Modelled from the spec: the cache value `DecompressedGroup`
(`shadersBinaryData.h` lines 83-87): the decompressed bytes of one bytecode
group, viewed through `sh_group` as a list of per-shader bytecode entries.
Bytes and `uint32_t` words are modelled as `Nat`, an entry as `List Nat`. -/
structure DecompressedGroup where
  sh_group : List (List Nat)
deriving DecidableEq

/-- Modelled from the spec: `decompressed_groups_cache_t =
eastl::lru_cache<uint16_t, DecompressedGroup>` (the EASTL implementation is
not in the excerpt).  Entries are kept in recency order, most-recently-used
first; `capacity` is fixed at construction. -/
structure LruCache (β : Type) where
  capacity : Nat
  entries : List (Nat × β)
deriving DecidableEq

namespace LruCache

/-- A freshly constructed cache with capacity `K` and no entries. -/
def empty (β : Type) (K : Nat) : LruCache β := ⟨K, []⟩

/-- The keys of the resident entries, most-recently-used first. -/
def keys (c : LruCache β) : List Nat := c.entries.map Prod.fst

/-- Modelled from the spec: `lookup(groupId)` returns the cached entry and
marks it most-recently-used (moves it to the front of the recency order),
or returns none if absent. -/
def lookupTouch (c : LruCache β) (k : Nat) : Option β × LruCache β :=
  match c.entries.find? (fun e => e.1 == k) with
  | some e => (some e.2, ⟨c.capacity, e :: c.entries.filter (fun e => e.1 != k)⟩)
  | none => (none, c)

/-- Modelled from the spec: `insert(groupId, group)` stores a newly
decompressed group as most-recently-used; when the cache is at capacity the
least-recently-used entry (the back of the recency order, which on recency
ties is the older-inserted one) is evicted first.  An existing entry for the
same key is replaced without corrupting the recency order. -/
def insert (c : LruCache β) (k : Nat) (v : β) : LruCache β :=
  let es := c.entries.filter (fun e => e.1 != k)
  let es := if c.capacity ≤ es.length then es.dropLast else es
  ⟨c.capacity, (k, v) :: es⟩

/-- Modelled from the spec: the cache interaction of one `getCode` call for
group `k`, where `f` is the (pure, deterministic) decompression of a group
from the immutable raw dump: look the group up, and on a miss decompress it
and insert it. -/
def access (c : LruCache β) (k : Nat) (f : Nat → β) : β × LruCache β :=
  match c.lookupTouch k with
  | (some v, c') => (v, c')
  | (none, _) => (f k, c.insert k (f k))

/-- Run a sequence of group requests through the cache. -/
def accessAll (c : LruCache β) (ks : List Nat) (f : Nat → β) : LruCache β :=
  ks.foldl (fun c k => (c.access k f).2) c

end LruCache

/-- One cache operation, for stating invariants over arbitrary operation
sequences: a `lookup` of a key, or an `insert` of a key with a value. -/
inductive CacheOp (β : Type) where
  | look (k : Nat)
  | ins (k : Nat) (v : β)
deriving DecidableEq

/-- Apply one cache operation. -/
def applyOp (c : LruCache β) : CacheOp β → LruCache β
  | .look k => (c.lookupTouch k).2
  | .ins k v => c.insert k v

/-- Apply a sequence of cache operations. -/
def runOps (c : LruCache β) (ops : List (CacheOp β)) : LruCache β :=
  ops.foldl applyOp c

/-- The cache's structural invariant: at most one entry per group id, and no
more resident entries than the configured capacity. -/
def LruCache.wellFormed (c : LruCache β) : Prop :=
  c.keys.Nodup ∧ c.entries.length ≤ c.capacity

/-- The recency-order obligation of one operation on a cache: an insertion
makes its key most-recently-used, and so does a successful lookup. -/
def recencyUpdated (c : LruCache β) : CacheOp β → Prop
  | .look k => (c.lookupTouch k).1.isSome → ((c.lookupTouch k).2.keys.head? = some k)
  | .ins k v => (c.insert k v).keys.head? = some k

/-- The `ShaderCodeType` enum of `shadersBinaryData.h` (lines 50-55).  A C++
unscoped-value enum whose constants are plain integers; `COMPUTE = PIXEL` in
the source, so the three names denote the two slot values `0` and `1`. -/
def ShaderCodeType.VERTEX : Nat := 0

/-- `PIXEL` member of `ShaderCodeType` (source value `1`). -/
def ShaderCodeType.PIXEL : Nat := 1

/-- `COMPUTE` member of `ShaderCodeType`; the source declares
`COMPUTE = PIXEL`. -/
def ShaderCodeType.COMPUTE : Nat := ShaderCodeType.PIXEL

/-- Modelled from the spec: the capacity of the decompressed-groups cache,
fixed at construction (the constant lives in the `.cpp` file, outside the
excerpt; only its positivity and fixedness matter to the claims). -/
def decompressed_groups_cache_capacity : Nat := 4

/-- The state of a `ScriptedShadersBinDumpOwner` (`shadersBinaryData.h` lines
59-107).  Parsed-view pointers become `Option` values carrying the mapped
bytes; `mSelfData` is the owned raw byte buffer; the `eastl::unique_ptr` to
the LRU cache becomes an `Option (LruCache DecompressedGroup)`. -/
structure ScriptedShadersBinDumpOwner where
  mShaderDump : Option (List Nat)
  mShaderDumpV2 : Option (List Nat)
  mShaderDumpV3 : Option (List Nat)
  mSelfData : List Nat
  mDecompressedGropusLru : Option (LruCache DecompressedGroup)
deriving DecidableEq

namespace ScriptedShadersBinDumpOwner

/-- A default-constructed owner: every pointer null, no data. -/
def emptyOwner : ScriptedShadersBinDumpOwner :=
  ⟨none, none, none, [], none⟩

/-- `getDumpSize`, inline in the header: `return mSelfData.size();`. -/
def getDumpSize (s : ScriptedShadersBinDumpOwner) : Nat := s.mSelfData.length

/-- `operator->`, inline in the header: `return mShaderDump;`. -/
def arrowAccess (s : ScriptedShadersBinDumpOwner) : Option (List Nat) :=
  s.mShaderDump

/-- `getDump`, inline in the header: `return mShaderDump;`. -/
def getDump (s : ScriptedShadersBinDumpOwner) : Option (List Nat) :=
  s.mShaderDump

/-- `getDumpV2`, inline in the header: `return mShaderDumpV2;`. -/
def getDumpV2 (s : ScriptedShadersBinDumpOwner) : Option (List Nat) :=
  s.mShaderDumpV2

/-- `getDumpV3`, inline in the header: `return mShaderDumpV3;`. -/
def getDumpV3 (s : ScriptedShadersBinDumpOwner) : Option (List Nat) :=
  s.mShaderDumpV3

/-- The entries currently held by the decompression cache (empty when the
cache was never created or was dropped). -/
def cachedEntries (s : ScriptedShadersBinDumpOwner) : List (Nat × DecompressedGroup) :=
  match s.mDecompressedGropusLru with
  | some c => c.entries
  | none => []

/-- Modelled from the spec: `clear()` releases the raw buffer, nulls all
parsed-view pointers and drops every entry of the decompression cache. -/
def clear (_ : ScriptedShadersBinDumpOwner) : ScriptedShadersBinDumpOwner :=
  emptyOwner

/-- Modelled from the spec: the owner state produced by a successful load of
`data` whose header carried version tag `tag` (one of `1`, `2`, `3`): the raw
buffer is retained, exactly the view of the tagged version is activated, and
`initAfterLoad` creates the (empty) decompression cache. -/
def mkLoaded (data : List Nat) (tag : Nat) : ScriptedShadersBinDumpOwner :=
  { mShaderDump := if tag = 1 then some data else none
    mShaderDumpV2 := if tag = 2 then some data else none
    mShaderDumpV3 := if tag = 3 then some data else none
    mSelfData := data
    mDecompressedGropusLru :=
      some (LruCache.empty DecompressedGroup decompressed_groups_cache_capacity) }

/-- Modelled from the spec: `loadData(dump, size)` parses `size` bytes of an
in-memory buffer.  The modelled binary format is a two-byte header — a
version tag (`1`, `2` or `3`) and a declared total size — followed by the
payload.  It fails, leaving the owner empty, on truncated input (fewer than
`size` bytes available, or `size` too small for a header), an unrecognized
version tag, or a declared-size mismatch; on success exactly one versioned
view is activated. -/
def loadData (bytes : List Nat) (size : Nat) : Bool × ScriptedShadersBinDumpOwner :=
  if bytes.length < size then (false, emptyOwner)
  else if size < 2 then (false, emptyOwner)
  else if (bytes.take size).getD 1 0 ≠ size then (false, emptyOwner)
  else if (bytes.take size).getD 0 0 = 1 ∨ (bytes.take size).getD 0 0 = 2 ∨
      (bytes.take size).getD 0 0 = 3 then
    (true, mkLoaded (bytes.take size) ((bytes.take size).getD 0 0))
  else (false, emptyOwner)

/-- Modelled from the spec: `load(crd, size)` reads `size` bytes from a
readable source (modelled as the source's byte list) and proceeds as
`loadData`; a short read fails with the owner left empty. -/
def load (crd : List Nat) (size : Nat) : Bool × ScriptedShadersBinDumpOwner :=
  if crd.length < size then (false, emptyOwner)
  else loadData (crd.take size) size

end ScriptedShadersBinDumpOwner

/-- Truncated-input condition for the modelled loader: fewer bytes available
than requested, or a requested size too small to hold the header. -/
def truncatedInput (bytes : List Nat) (size : Nat) : Bool :=
  decide (bytes.length < size) || decide (size < 2)

/-- Unrecognized-version-tag condition: the first read byte (the header's
version tag) is not one of the three known tags. -/
def unrecognizedVersionTag (bytes : List Nat) (size : Nat) : Bool :=
  !((bytes.take size).getD 0 0 == 1 || (bytes.take size).getD 0 0 == 2 ||
    (bytes.take size).getD 0 0 == 3)

/-- Size-mismatch condition: the total size declared in the header's second
byte differs from the requested size. -/
def sizeFieldMismatch (bytes : List Nat) (size : Nat) : Bool :=
  (bytes.take size).getD 1 0 != size

/-- Modelled from the spec: the immutable data that the retrieval path reads
after a successful load — the active parsed view resolving a shader code id
and a code-type slot to the owning `(groupId, indexInGroup)` pair, and the
raw dump from which any group can be decompressed (decompression is a pure,
deterministic, CPU-only function of the immutable buffer, here represented
by the function itself). -/
structure ShadersDump where
  resolve : Nat → Nat → Nat × Nat
  groupData : Nat → List (List Nat)

/-- Modelled from the spec: decompressing group `g` from the raw buffer of
`d` always yields the same `DecompressedGroup` (decompression is stateless
and idempotent). -/
def decompressGroup (d : ShadersDump) (g : Nat) : DecompressedGroup :=
  ⟨d.groupData g⟩

/-- Modelled from the spec: `copyDecompressedShader` copies the bytecode at
`index_in_group` out of a decompressed group into the caller's scratch
buffer, whose previous contents are replaced; the result is the new scratch
buffer contents. -/
def copyDecompressedShader (g : DecompressedGroup) (index_in_group : Nat) : List Nat :=
  g.sh_group.getD index_in_group []

/-- Modelled from the spec: `getCode(id, type, tmpbuf)` resolves the id and
code-type slot to `(groupId, indexInGroup)` through the active view, obtains
the decompressed group through the cache (lookup, decompress-and-insert on a
miss), and copies the requested bytecode into the scratch buffer.  Returns
the returned span's contents together with the updated cache. -/
def getCode (d : ShadersDump) (c : LruCache DecompressedGroup) (id ty : Nat) :
    List Nat × LruCache DecompressedGroup :=
  let gi := d.resolve id ty
  let r := c.access gi.1 (decompressGroup d)
  (copyDecompressedShader r.1 gi.2, r.2)

/-- The cache-free reference path: decompress the owning group afresh on
every call and copy the requested bytecode out. -/
def coldCode (d : ShadersDump) (id ty : Nat) : List Nat :=
  copyDecompressedShader (decompressGroup d (d.resolve id ty).1) (d.resolve id ty).2

/-- Run a sequence of `getCode` requests (pairs of id and code-type slot)
against the cache, keeping only the final cache state. -/
def runGetCodes (d : ShadersDump) (c : LruCache DecompressedGroup)
    (reqs : List (Nat × Nat)) : LruCache DecompressedGroup :=
  reqs.foldl (fun c r => (getCode d c r.1 r.2).2) c

/-- Every entry resident in the cache is the decompression of its own key's
group: the consistency invariant tying cache contents to the dump. -/
def cacheConsistent (d : ShadersDump) (c : LruCache DecompressedGroup) : Prop :=
  ∀ e ∈ c.entries, e.2 = decompressGroup d e.1

/-! ### Helper lemmas about the cache representation -/

/-- Finding by key in an entry list built by pairing keys with `f` succeeds
exactly on present keys and returns the key's own pairing. -/
theorem find?_key_map (f : Nat → β) (k : Nat) (l : List Nat) :
    (l.map (fun x => (x, f x))).find? (fun e => e.1 == k) =
      if k ∈ l then some (k, f k) else none := by
  induction l with
  | nil => simp
  | cons a t ih =>
    by_cases hak : a = k
    · subst hak
      simp [List.find?_cons]
    · have hpa : ((a, f a).1 == k) = false := by simp [hak]
      simp only [List.map_cons, List.find?_cons, hpa, ih, List.mem_cons]
      have : (k = a ∨ k ∈ t) ↔ k ∈ t := by
        constructor
        · rintro (rfl | h)
          · exact absurd rfl hak
          · exact h
        · exact Or.inr
      rw [if_congr this rfl rfl]

/-- Filtering a paired entry list by key mismatch is pairing the filtered
key list. -/
theorem filter_key_map (f : Nat → β) (k : Nat) (l : List Nat) :
    (l.map (fun x => (x, f x))).filter (fun e => e.1 != k) =
      (l.filter (fun x => x != k)).map (fun x => (x, f x)) :=
  List.filter_map (fun x => (x, f x)) l

/-- Filtering out an absent key changes nothing. -/
theorem filter_ne_of_not_mem {k : Nat} {l : List Nat} (h : k ∉ l) :
    l.filter (fun x => x != k) = l := by
  refine List.filter_eq_self.mpr (fun a ha => ?_)
  simp only [bne_iff_ne, ne_eq, decide_eq_true_eq]
  rintro rfl
  exact h ha

/-- Dropping the last element of a length-`K` prefix shortens the prefix by
one when the list is long enough. -/
theorem dropLast_take {K : Nat} (l : List α) (h : K ≤ l.length) :
    (l.take K).dropLast = l.take (K - 1) := by
  rw [List.dropLast_eq_take, List.length_take, List.take_take]
  congr 1
  omega

/-- The keys of a filtered entry list are the filtered keys. -/
theorem keys_filter (l : List (Nat × β)) (k : Nat) :
    (l.filter (fun e => e.1 != k)).map Prod.fst =
      (l.map Prod.fst).filter (fun x => x != k) := by
  rw [show (fun e : Nat × β => e.1 != k) = ((fun x => x != k) ∘ Prod.fst) from rfl,
    List.filter_map]

namespace LruCache

/-- `lookupTouch` never changes the capacity. -/
theorem capacity_lookupTouch (c : LruCache β) (k : Nat) :
    (c.lookupTouch k).2.capacity = c.capacity := by
  unfold lookupTouch
  cases c.entries.find? (fun e => e.1 == k) <;> rfl

/-- `insert` never changes the capacity. -/
theorem capacity_insert (c : LruCache β) (k : Nat) (v : β) :
    (c.insert k v).capacity = c.capacity := rfl

/-- On a miss (`find?` fails), `access` decompresses and inserts. -/
theorem access_of_find?_none {c : LruCache β} {k : Nat} (f : Nat → β)
    (h : c.entries.find? (fun e => e.1 == k) = none) :
    c.access k f = (f k, c.insert k (f k)) := by
  unfold access lookupTouch
  rw [h]

/-- On a hit, `access` returns the found entry's value and refreshes its
recency. -/
theorem access_of_find?_some {c : LruCache β} {k : Nat} {e : Nat × β} (f : Nat → β)
    (h : c.entries.find? (fun e => e.1 == k) = some e) :
    c.access k f =
      (e.2, ⟨c.capacity, e :: c.entries.filter (fun e => e.1 != k)⟩) := by
  unfold access lookupTouch
  rw [h]

/-- Inserting a fresh key into a cache whose entries pair the key list
`p.reverse.take K` with `f` yields the entries paired from
`(p ++ [k]).reverse.take K`: the new key becomes most recent and, at
capacity, the oldest resident is evicted. -/
theorem insert_fresh {β : Type} (f : Nat → β) {K : Nat} (hK : 0 < K)
    {p : List Nat} {c : LruCache β} {k : Nat}
    (hcap : c.capacity = K)
    (hent : c.entries = (p.reverse.take K).map (fun x => (x, f x)))
    (hkp : k ∉ p) :
    (c.insert k (f k)).entries =
      (((p ++ [k]).reverse).take K).map (fun x => (x, f x)) := by
  obtain ⟨n, rfl⟩ : ∃ n, K = n + 1 := ⟨K - 1, by omega⟩
  have hkentries : k ∉ p.reverse.take (n + 1) := fun hmem =>
    hkp (List.mem_reverse.mp (List.take_subset (n + 1) p.reverse hmem))
  have hfilter : c.entries.filter (fun e => e.1 != k) = c.entries := by
    rw [hent, filter_key_map, filter_ne_of_not_mem hkentries]
  have hrev : (p ++ [k]).reverse = k :: p.reverse := by
    rw [List.reverse_append]
    rfl
  have htake : ((p ++ [k]).reverse).take (n + 1) = k :: p.reverse.take n := by
    rw [hrev, List.take_succ_cons]
  unfold insert
  simp only [hfilter, hcap, htake, List.map_cons]
  congr 1
  have hlen : c.entries.length = min (n + 1) p.length := by
    rw [hent]
    simp [List.length_take]
  by_cases hc : n + 1 ≤ p.length
  · rw [if_pos (by rw [hlen]; exact le_min (le_refl _) hc), hent,
      ← List.map_dropLast, dropLast_take p.reverse (by simpa using hc)]
    simp
  · rw [if_neg (by rw [hlen]; exact fun hcon => hc (le_trans hcon (min_le_right _ _))),
      hent,
      List.take_of_length_le (le_trans (le_of_eq (List.length_reverse p)) (by omega)),
      List.take_of_length_le (le_trans (le_of_eq (List.length_reverse p)) (by omega))]

/-- Running a sequence of pairwise-distinct, previously-unseen group requests
through the cache leaves exactly the `K` most recent of them resident, in
recency order (most recent first); earlier ones were evicted oldest-first. -/
theorem accessAll_fresh {β : Type} (f : Nat → β) (K : Nat) (hK : 0 < K) :
    ∀ (ks p : List Nat) (c : LruCache β),
      (p ++ ks).Nodup →
      c.capacity = K →
      c.entries = (p.reverse.take K).map (fun x => (x, f x)) →
      (c.accessAll ks f).capacity = K ∧
      (c.accessAll ks f).entries =
        (((p ++ ks).reverse).take K).map (fun x => (x, f x)) := by
  intro ks
  induction ks with
  | nil =>
    intro p c _ hcap hent
    simp only [accessAll, List.foldl_nil, List.append_nil]
    exact ⟨hcap, hent⟩
  | cons k t ih =>
    intro p c hnd hcap hent
    have hnd' : ((p ++ [k]) ++ t).Nodup := by
      rw [List.append_assoc, List.singleton_append]
      exact hnd
    have hkp : k ∉ p := by
      rcases List.nodup_append.mp hnd with ⟨_, _, hdisj⟩
      exact fun hk => hdisj hk (List.mem_cons_self k t)
    have hkentries : k ∉ p.reverse.take K := fun hmem =>
      hkp (List.mem_reverse.mp (List.take_subset K p.reverse hmem))
    have hfind : c.entries.find? (fun e => e.1 == k) = none := by
      rw [hent, find?_key_map, if_neg hkentries]
    have hacc : c.access k f = (f k, c.insert k (f k)) :=
      access_of_find?_none f hfind
    have hstep : c.accessAll (k :: t) f = (c.insert k (f k)).accessAll t f := by
      unfold accessAll
      rw [List.foldl_cons, hacc]
    rw [hstep]
    have hres := ih (p ++ [k]) (c.insert k (f k)) hnd'
      (by rw [capacity_insert]; exact hcap)
      (insert_fresh f hK hcap hent hkp)
    rwa [List.append_assoc, List.singleton_append] at hres

/-- On an absent key, `lookupTouch` reports a miss and leaves the cache
unchanged. -/
theorem lookupTouch_of_find?_none {c : LruCache β} {k : Nat}
    (h : c.entries.find? (fun e => e.1 == k) = none) :
    c.lookupTouch k = (none, c) := by
  unfold lookupTouch
  rw [h]

/-- On a present key, `lookupTouch` returns the found entry and moves it to
the front of the recency order. -/
theorem lookupTouch_of_find?_some {c : LruCache β} {k : Nat} {e : Nat × β}
    (h : c.entries.find? (fun e => e.1 == k) = some e) :
    c.lookupTouch k =
      (some e.2, ⟨c.capacity, e :: c.entries.filter (fun e => e.1 != k)⟩) := by
  unfold lookupTouch
  rw [h]

/-- The observable result of a lookup on a cache whose entries pair the key
list `l` with `f`: the value for a present key, nothing for an absent one. -/
theorem lookupTouch_fst_of_entries {β : Type} {c : LruCache β} {l : List Nat}
    (f : Nat → β) (k : Nat) (h : c.entries = l.map (fun x => (x, f x))) :
    (c.lookupTouch k).1 = if k ∈ l then some (f k) else none := by
  unfold lookupTouch
  rw [h, find?_key_map]
  by_cases hk : k ∈ l
  · rw [if_pos hk, if_pos hk]
  · rw [if_neg hk, if_neg hk]

end LruCache

/-! ### Claim theorems for the cache -/

/-- C1: For the decompressed-group cache with capacity `K`, after a sequence
of `getCode` calls touching `K + 1` distinct group ids `g1 .. g(K+1)` in
order (each a miss that inserts), a subsequent request for `g1` misses —
`g1`, the entry whose recency tie is broken by its older insertion, was
evicted as least recently used — while a request for `g(K+1)` hits. -/
theorem lru_eviction_order (K : Nat) (f : Nat → DecompressedGroup) (g1 gl : Nat)
    (t : List Nat) (hK : 0 < K) (hnd : (g1 :: t).Nodup) (hlen : t.length = K)
    (hgl : (g1 :: t).getLast? = some gl) :
    (((LruCache.empty DecompressedGroup K).accessAll (g1 :: t) f).lookupTouch g1).1 =
      none ∧
    (((LruCache.empty DecompressedGroup K).accessAll (g1 :: t) f).lookupTouch gl).1 =
      some (f gl) := by
  have hnd0 : (([] : List Nat) ++ (g1 :: t)).Nodup := by simpa using hnd
  obtain ⟨hcap2, hent2⟩ := LruCache.accessAll_fresh f K hK (g1 :: t) []
    (LruCache.empty DecompressedGroup K) hnd0 rfl (by simp [LruCache.empty])
  rw [List.nil_append] at hent2
  have htake : ((g1 :: t).reverse).take K = t.reverse := by
    rw [List.reverse_cons]
    exact List.take_left' (by rw [List.length_reverse]; exact hlen)
  rw [htake] at hent2
  constructor
  · rw [LruCache.lookupTouch_fst_of_entries f g1 hent2, if_neg]
    intro hmem
    exact (List.nodup_cons.mp hnd).1 (List.mem_reverse.mp hmem)
  · rw [List.getLast?_eq_head?_reverse, List.reverse_cons] at hgl
    rw [LruCache.lookupTouch_fst_of_entries f gl hent2, if_pos]
    cases hc : t.reverse with
    | nil =>
      exfalso
      have ht : t = [] := List.reverse_eq_nil_iff.mp hc
      rw [ht] at hlen
      simp at hlen
      omega
    | cons x xs =>
      rw [hc] at hgl
      simp only [List.cons_append, List.head?_cons, Option.some_inj] at hgl
      rw [← hgl]
      exact List.mem_cons_self x xs

/-- C1 witness: capacity 2, groups 1, 2, 3 requested in order; afterwards
group 1 misses and group 3 hits. -/
theorem lru_eviction_order_witness :
    (((LruCache.empty DecompressedGroup 2).accessAll (1 :: [2, 3])
        (fun _ => ⟨[]⟩)).lookupTouch 1).1 = none ∧
    (((LruCache.empty DecompressedGroup 2).accessAll (1 :: [2, 3])
        (fun _ => ⟨[]⟩)).lookupTouch 3).1 = some ⟨[]⟩ :=
  lru_eviction_order 2 (fun _ => ⟨[]⟩) 1 3 [2, 3] (by decide) (by decide)
    (by decide) (by decide)

/-- C2: A successful lookup refreshes recency: after filling the capacity-`K`
cache with distinct groups `g1, g2, …, gK`, requesting `g1` again and then a
`(K+1)`th distinct group `gnew` keeps `g1` resident (a hit) and evicts `g2`
instead (a miss). -/
theorem lru_recency_refresh (K : Nat) (f : Nat → DecompressedGroup)
    (g1 g2 gnew : Nat) (t2 : List Nat) (hnd : (g1 :: g2 :: t2).Nodup)
    (hlen : t2.length + 2 = K) (hfresh : gnew ∉ g1 :: g2 :: t2) :
    (((LruCache.empty DecompressedGroup K).accessAll
        ((g1 :: g2 :: t2) ++ [g1, gnew]) f).lookupTouch g1).1 = some (f g1) ∧
    (((LruCache.empty DecompressedGroup K).accessAll
        ((g1 :: g2 :: t2) ++ [g1, gnew]) f).lookupTouch g2).1 = none := by
  have hK : 0 < K := by omega
  -- distinctness facts
  have hg1 : g1 ∉ g2 :: t2 := (List.nodup_cons.mp hnd).1
  have hg1g2 : g1 ≠ g2 := fun h => hg1 (h ▸ List.mem_cons_self g2 t2)
  have hg1t2 : g1 ∉ t2 := fun h => hg1 (List.mem_cons_of_mem g2 h)
  have hnd2 : (g2 :: t2).Nodup := (List.nodup_cons.mp hnd).2
  have hg2t2 : g2 ∉ t2 := (List.nodup_cons.mp hnd2).1
  have hng1 : gnew ≠ g1 := fun h => hfresh (h ▸ List.mem_cons_self g1 (g2 :: t2))
  have hng2 : gnew ≠ g2 := fun h =>
    hfresh (List.mem_cons_of_mem g1 (h ▸ List.mem_cons_self g2 t2))
  have hnt2 : gnew ∉ t2 := fun h =>
    hfresh (List.mem_cons_of_mem g1 (List.mem_cons_of_mem g2 h))
  -- phase 1: fill the cache with g1 .. gK
  have hnd0 : (([] : List Nat) ++ (g1 :: g2 :: t2)).Nodup := by simpa using hnd
  obtain ⟨hcap0, hent0⟩ := LruCache.accessAll_fresh f K hK (g1 :: g2 :: t2) []
    (LruCache.empty DecompressedGroup K) hnd0 rfl (by simp [LruCache.empty])
  rw [List.nil_append] at hent0
  have hrevlen : ((g1 :: g2 :: t2).reverse).length = K := by
    rw [List.length_reverse]
    simpa using hlen
  rw [List.take_of_length_le (le_of_eq hrevlen)] at hent0
  have hrev : (g1 :: g2 :: t2).reverse = (t2.reverse ++ [g2]) ++ [g1] := by
    rw [List.reverse_cons, List.reverse_cons]
  rw [hrev] at hent0
  -- unfold the two extra requests
  have hsplit : (LruCache.empty DecompressedGroup K).accessAll
      ((g1 :: g2 :: t2) ++ [g1, gnew]) f =
      ((((LruCache.empty DecompressedGroup K).accessAll (g1 :: g2 :: t2) f).access
          g1 f).2.access gnew f).2 := by
    unfold LruCache.accessAll
    rw [List.foldl_append]
    rfl
  rw [hsplit]
  set c0 := (LruCache.empty DecompressedGroup K).accessAll (g1 :: g2 :: t2) f
    with hc0
  -- phase 2: a hit on g1 moves it to the front
  have hg1mem : g1 ∈ (t2.reverse ++ [g2]) ++ [g1] := by simp
  have hfind1 : c0.entries.find? (fun e => e.1 == g1) = some (g1, f g1) := by
    rw [hent0, find?_key_map, if_pos hg1mem]
  have hacc1 := LruCache.access_of_find?_some f hfind1
  set c1 := (c0.access g1 f).2 with hc1
  have hc1cap : c1.capacity = K := by
    rw [hc1, hacc1]
    exact hcap0
  have hg1filter : ((t2.reverse ++ [g2]) ++ [g1]).filter (fun x => x != g1) =
      t2.reverse ++ [g2] := by
    rw [List.filter_append, filter_ne_of_not_mem (l := t2.reverse ++ [g2])
      (by
        intro h
        rcases List.mem_append.mp h with h | h
        · exact hg1t2 (List.mem_reverse.mp h)
        · exact hg1g2 (by simpa using h))]
    simp
  have hc1ent : c1.entries = (g1 :: (t2.reverse ++ [g2])).map (fun x => (x, f x)) := by
    rw [hc1, hacc1]
    show (g1, f g1) :: c0.entries.filter (fun e => e.1 != g1) = _
    rw [hent0, filter_key_map, hg1filter, List.map_cons]
  -- phase 3: a miss on gnew evicts the back entry, which is now g2
  have hnmem : gnew ∉ g1 :: (t2.reverse ++ [g2]) := by
    intro h
    rcases List.mem_cons.mp h with h | h
    · exact hng1 h
    · rcases List.mem_append.mp h with h | h
      · exact hnt2 (List.mem_reverse.mp h)
      · exact hng2 (by simpa using h)
  have hfind2 : c1.entries.find? (fun e => e.1 == gnew) = none := by
    rw [hc1ent, find?_key_map, if_neg hnmem]
  have hacc2 := LruCache.access_of_find?_none f hfind2
  have hc2ent : ((c1.access gnew f).2).entries =
      (gnew :: (g1 :: t2.reverse)).map (fun x => (x, f x)) := by
    rw [hacc2]
    show ((c1.insert gnew (f gnew))).entries = _
    unfold LruCache.insert
    simp only [hc1ent, filter_key_map, filter_ne_of_not_mem hnmem]
    rw [if_pos (by
      rw [hc1cap, List.length_map]
      simp only [List.length_cons, List.length_append, List.length_reverse,
        List.length_singleton]
      omega)]
    rw [← List.map_dropLast,
      show g1 :: (t2.reverse ++ [g2]) = (g1 :: t2.reverse) ++ [g2] from rfl,
      List.dropLast_concat, List.map_cons]
    simp
  constructor
  · rw [LruCache.lookupTouch_fst_of_entries f g1 hc2ent, if_pos]
    exact List.mem_cons_of_mem gnew (List.mem_cons_self g1 t2.reverse)
  · rw [LruCache.lookupTouch_fst_of_entries f g2 hc2ent, if_neg]
    intro h
    rcases List.mem_cons.mp h with h | h
    · exact hng2 h.symm
    · rcases List.mem_cons.mp h with h | h
      · exact hg1g2 h.symm
      · exact hg2t2 (List.mem_reverse.mp h)

namespace LruCache

/-- A freshly constructed cache satisfies the structural invariant. -/
theorem empty_wellFormed (β : Type) (K : Nat) :
    (LruCache.empty β K).wellFormed := by
  constructor
  · simp [LruCache.empty, LruCache.keys]
  · simp [LruCache.empty]

/-- A successful lookup preserves the structural invariant. -/
theorem wellFormed_lookupTouch {β : Type} (c : LruCache β) (k : Nat)
    (hw : c.wellFormed) : (c.lookupTouch k).2.wellFormed := by
  obtain ⟨hnd, hlenle⟩ := hw
  cases hf : c.entries.find? (fun e => e.1 == k) with
  | none => rw [LruCache.lookupTouch_of_find?_none hf]; exact ⟨hnd, hlenle⟩
  | some e =>
    rw [LruCache.lookupTouch_of_find?_some hf]
    have hek : e.1 = k := by simpa using List.find?_some hf
    have hmem : e ∈ c.entries := List.mem_of_find?_eq_some hf
    constructor
    · show ((e :: c.entries.filter fun e => e.1 != k).map Prod.fst).Nodup
      rw [List.map_cons, keys_filter, hek]
      refine List.nodup_cons.mpr ⟨?_, ?_⟩
      · intro hcon
        have := (List.mem_filter.mp hcon).2
        simp at this
      · exact (List.filter_sublist _).nodup hnd
    · show (e :: c.entries.filter fun e => e.1 != k).length ≤ c.capacity
      rw [List.length_cons]
      have hlt : (c.entries.filter (fun e => e.1 != k)).length < c.entries.length :=
        List.length_filter_lt_length_iff_exists.mpr ⟨e, hmem, by simp [hek]⟩
      omega

/-- An insertion preserves the structural invariant when the capacity is
positive. -/
theorem wellFormed_insert {β : Type} (c : LruCache β) (k : Nat) (v : β)
    (hK : 0 < c.capacity) (hw : c.wellFormed) : (c.insert k v).wellFormed := by
  obtain ⟨hnd, hlenle⟩ := hw
  unfold LruCache.insert
  have hsubl : (if c.capacity ≤ (c.entries.filter (fun e => e.1 != k)).length then
      (c.entries.filter (fun e => e.1 != k)).dropLast
      else c.entries.filter (fun e => e.1 != k)).Sublist
      (c.entries.filter (fun e => e.1 != k)) := by
    split
    · exact List.dropLast_sublist _
    · exact List.Sublist.refl _
  constructor
  · show ((k, v) :: _).map Prod.fst |>.Nodup
    rw [List.map_cons]
    refine List.nodup_cons.mpr ⟨?_, ?_⟩
    · intro hcon
      obtain ⟨e, he, hfst⟩ := List.mem_map.mp hcon
      have := (List.mem_filter.mp (hsubl.subset he)).2
      rw [hfst] at this
      simp at this
    · refine (List.Sublist.map Prod.fst (hsubl.trans (List.filter_sublist _))).nodup hnd
  · show ((k, v) :: _).length ≤ c.capacity
    rw [List.length_cons]
    have hfle : (c.entries.filter (fun e => e.1 != k)).length ≤ c.entries.length :=
      List.length_filter_le _ _
    split
    · rw [List.length_dropLast]
      omega
    · omega

end LruCache

/-- Applying any cache operation preserves the capacity. -/
theorem capacity_applyOp (c : LruCache β) (op : CacheOp β) :
    (applyOp c op).capacity = c.capacity := by
  cases op with
  | look k => exact LruCache.capacity_lookupTouch c k
  | ins k v => rfl

/-- Applying any cache operation preserves the structural invariant when the
capacity is positive. -/
theorem wellFormed_applyOp (c : LruCache β) (op : CacheOp β)
    (hc : 0 < c.capacity) (hw : c.wellFormed) : (applyOp c op).wellFormed := by
  cases op with
  | look k => exact LruCache.wellFormed_lookupTouch c k hw
  | ins k v => exact LruCache.wellFormed_insert c k v hc hw

/-- Running any operation sequence from a well-formed cache with positive
capacity keeps the cache well-formed and the capacity unchanged. -/
theorem runOps_wellFormed (ops : List (CacheOp β)) :
    ∀ c : LruCache β, 0 < c.capacity → c.wellFormed →
      (runOps c ops).wellFormed ∧ (runOps c ops).capacity = c.capacity := by
  induction ops with
  | nil => intro c _ hw; exact ⟨hw, rfl⟩
  | cons op t ih =>
    intro c hc hw
    have hstep : runOps c (op :: t) = runOps (applyOp c op) t := by
      unfold runOps
      rw [List.foldl_cons]
    rw [hstep]
    obtain ⟨h1, h2⟩ := ih (applyOp c op)
      (by rw [capacity_applyOp]; exact hc) (wellFormed_applyOp c op hc hw)
    exact ⟨h1, by rw [h2, capacity_applyOp]⟩

/-- Every operation updates the recency order as required: an insertion puts
its key in front, and so does a successful lookup. -/
theorem recencyUpdated_all (c : LruCache β) (op : CacheOp β) :
    recencyUpdated c op := by
  cases op with
  | ins k v =>
    show (c.insert k v).keys.head? = some k
    unfold LruCache.insert LruCache.keys
    simp
  | look k =>
    intro hsome
    cases hf : c.entries.find? (fun e => e.1 == k) with
    | none =>
      rw [LruCache.lookupTouch_of_find?_none hf] at hsome
      simp at hsome
    | some e =>
      rw [LruCache.lookupTouch_of_find?_some hf]
      have hek : e.1 = k := by simpa using List.find?_some hf
      simp [LruCache.keys, hek]

/-- C3: Across every sequence of lookup and insert operations on the
decompression cache, each group id keys at most one entry and the number of
resident entries never exceeds the configured capacity; moreover the recency
order is updated by every insertion and every successful lookup. -/
theorem lru_cache_invariants (K : Nat) (hK : 0 < K)
    (ops : List (CacheOp DecompressedGroup)) (op : CacheOp DecompressedGroup) :
    (runOps (LruCache.empty DecompressedGroup K) ops).wellFormed ∧
    recencyUpdated (runOps (LruCache.empty DecompressedGroup K) ops) op :=
  ⟨(runOps_wellFormed ops (LruCache.empty DecompressedGroup K) hK
      (LruCache.empty_wellFormed DecompressedGroup K)).1,
   recencyUpdated_all _ op⟩

/-- C3 witness: capacity 1, one insertion, then the obligation for a
subsequent lookup of the inserted key. -/
theorem lru_cache_invariants_witness :
    (runOps (LruCache.empty DecompressedGroup 1) [CacheOp.ins 0 ⟨[]⟩]).wellFormed ∧
    recencyUpdated (runOps (LruCache.empty DecompressedGroup 1) [CacheOp.ins 0 ⟨[]⟩])
      (CacheOp.look 0) :=
  lru_cache_invariants 1 (by decide) [CacheOp.ins 0 ⟨[]⟩] (CacheOp.look 0)

/-- C2 witness: capacity 2, requests 1, 2, then 1 again, then 5; afterwards
group 1 still hits and group 2 was evicted. -/
theorem lru_recency_refresh_witness :
    (((LruCache.empty DecompressedGroup 2).accessAll ((1 :: 2 :: []) ++ [1, 5])
        (fun _ => ⟨[]⟩)).lookupTouch 1).1 = some ⟨[]⟩ ∧
    (((LruCache.empty DecompressedGroup 2).accessAll ((1 :: 2 :: []) ++ [1, 5])
        (fun _ => ⟨[]⟩)).lookupTouch 2).1 = none :=
  lru_recency_refresh 2 (fun _ => ⟨[]⟩) 1 2 5 [] (by decide) (by decide) (by decide)

/-! ### Cache transparency of the retrieval path -/

/-- A cache access with the dump's own decompression function returns exactly
the cold decompression of the requested group and keeps the cache
consistent. -/
theorem access_consistent (d : ShadersDump) (c : LruCache DecompressedGroup)
    (k : Nat) (hc : cacheConsistent d c) :
    (c.access k (decompressGroup d)).1 = decompressGroup d k ∧
    cacheConsistent d (c.access k (decompressGroup d)).2 := by
  cases hf : c.entries.find? (fun e => e.1 == k) with
  | none =>
    rw [LruCache.access_of_find?_none (decompressGroup d) hf]
    refine ⟨rfl, ?_⟩
    intro e he
    show e.2 = decompressGroup d e.1
    unfold LruCache.insert at he
    rcases List.mem_cons.mp he with rfl | he
    · rfl
    · refine hc e ?_
      have hsub : e ∈ c.entries.filter (fun e => e.1 != k) := by
        revert he
        split
        · exact fun h => List.dropLast_subset _ h
        · exact fun h => h
      exact (List.mem_filter.mp hsub).1
  | some e =>
    rw [LruCache.access_of_find?_some (decompressGroup d) hf]
    have hek : e.1 = k := by simpa using List.find?_some hf
    have hmem : e ∈ c.entries := List.mem_of_find?_eq_some hf
    refine ⟨by rw [hc e hmem, hek], ?_⟩
    intro e' he'
    rcases List.mem_cons.mp he' with rfl | he'
    · exact hc e' hmem
    · exact hc e' (List.mem_filter.mp he').1

/-- Every cache state reached by a sequence of `getCode` calls from a
consistent cache is consistent. -/
theorem runGetCodes_consistent (d : ShadersDump) (reqs : List (Nat × Nat)) :
    ∀ c : LruCache DecompressedGroup, cacheConsistent d c →
      cacheConsistent d (runGetCodes d c reqs) := by
  induction reqs with
  | nil => intro c hc; exact hc
  | cons r t ih =>
    intro c hc
    have hstep : runGetCodes d c (r :: t) = runGetCodes d (getCode d c r.1 r.2).2 t := by
      unfold runGetCodes
      rw [List.foldl_cons]
    rw [hstep]
    exact ih _ (access_consistent d c (d.resolve r.1 r.2).1 hc).2

/-- C4: For every dump and every sequence of `getCode` calls starting from a
fresh cache of any capacity, the bytecode returned for a given `(id, type)`
pair equals the one produced by a cold decompression of the owning group —
hits and misses are observationally identical. -/
theorem getCode_cache_transparent (d : ShadersDump) (K : Nat)
    (reqs : List (Nat × Nat)) (id ty : Nat) :
    (getCode d (runGetCodes d (LruCache.empty DecompressedGroup K) reqs) id ty).1 =
      coldCode d id ty := by
  have hcons : cacheConsistent d (runGetCodes d (LruCache.empty DecompressedGroup K) reqs) :=
    runGetCodes_consistent d reqs _ (by intro e he; simp [LruCache.empty] at he)
  simp only [getCode, coldCode]
  rw [(access_consistent d _ (d.resolve id ty).1 hcons).1]

/-! ### Loader, clear and accessor claims -/

/-- `load` is `loadData` precomposed with reading the requested prefix of the
source; the two agree on every input. -/
theorem load_eq_loadData (bytes : List Nat) (size : Nat) :
    ScriptedShadersBinDumpOwner.load bytes size =
      ScriptedShadersBinDumpOwner.loadData bytes size := by
  unfold ScriptedShadersBinDumpOwner.load
  by_cases h1 : bytes.length < size
  · rw [if_pos h1]
    unfold ScriptedShadersBinDumpOwner.loadData
    rw [if_pos h1]
  · rw [if_neg h1]
    unfold ScriptedShadersBinDumpOwner.loadData
    rw [if_neg (by rw [List.length_take]; omega), if_neg h1, List.take_take, min_self]

/-- C5: On truncated input, an unrecognized version tag, or a header
size-field mismatch, both `loadData` and `load` return the failure indicator
and retain no partial state: the owner is left empty, with no parsed view
activated. -/
theorem load_failure_no_partial_state (bytes : List Nat) (size : Nat)
    (h : truncatedInput bytes size = true ∨ unrecognizedVersionTag bytes size = true ∨
      sizeFieldMismatch bytes size = true) :
    ScriptedShadersBinDumpOwner.loadData bytes size =
      (false, ScriptedShadersBinDumpOwner.emptyOwner) ∧
    ScriptedShadersBinDumpOwner.load bytes size =
      (false, ScriptedShadersBinDumpOwner.emptyOwner) := by
  have hmain : ScriptedShadersBinDumpOwner.loadData bytes size =
      (false, ScriptedShadersBinDumpOwner.emptyOwner) := by
    unfold ScriptedShadersBinDumpOwner.loadData
    by_cases h1 : bytes.length < size
    · rw [if_pos h1]
    · rw [if_neg h1]
      by_cases h2 : size < 2
      · rw [if_pos h2]
      · rw [if_neg h2]
        rcases h with h | h | h
        · exfalso
          unfold truncatedInput at h
          simp only [Bool.or_eq_true, decide_eq_true_eq] at h
          rcases h with h | h
          · exact h1 h
          · exact h2 h
        · unfold unrecognizedVersionTag at h
          simp only [Bool.not_eq_eq_eq_not, Bool.not_true, Bool.or_eq_false_iff,
            beq_eq_false_iff_ne, ne_eq] at h
          by_cases h3 : (bytes.take size).getD 1 0 ≠ size
          · rw [if_pos h3]
          · rw [if_neg h3, if_neg]
            rcases h with ⟨⟨ha, hb⟩, hc⟩
            rintro (hh | hh | hh)
            · exact ha hh
            · exact hb hh
            · exact hc hh
        · unfold sizeFieldMismatch at h
          simp only [bne_iff_ne, ne_eq, decide_eq_true_eq] at h
          rw [if_pos h]
  exact ⟨hmain, by rw [load_eq_loadData]; exact hmain⟩

/-- C5 witness: a four-byte buffer with unknown version tag `7` makes both
entry points fail and leave the owner empty. -/
theorem load_failure_no_partial_state_witness :
    ScriptedShadersBinDumpOwner.loadData [7, 4, 0, 0] 4 =
      (false, ScriptedShadersBinDumpOwner.emptyOwner) ∧
    ScriptedShadersBinDumpOwner.load [7, 4, 0, 0] 4 =
      (false, ScriptedShadersBinDumpOwner.emptyOwner) :=
  load_failure_no_partial_state [7, 4, 0, 0] 4 (by decide)

/-- C6: After every successful load, exactly one of the three
version-specific parsed views is non-null, and each version accessor
(`getDump`, `getDumpV2`, `getDumpV3`) returns null whenever its version is
not the active one. -/
theorem load_activates_exactly_one_view (bytes : List Nat) (size : Nat)
    (s : ScriptedShadersBinDumpOwner)
    (h : ScriptedShadersBinDumpOwner.loadData bytes size = (true, s)) :
    (s.getDump.isSome = true ∧ s.getDumpV2 = none ∧ s.getDumpV3 = none) ∨
    (s.getDump = none ∧ s.getDumpV2.isSome = true ∧ s.getDumpV3 = none) ∨
    (s.getDump = none ∧ s.getDumpV2 = none ∧ s.getDumpV3.isSome = true) := by
  unfold ScriptedShadersBinDumpOwner.loadData at h
  split_ifs at h with h1 h2 h3 h4
  · simp at h
  · simp at h
  · simp at h
  · simp only [Prod.mk.injEq, true_and] at h
    subst h
    rcases h4 with ht | ht | ht
    · left
      refine ⟨?_, ?_, ?_⟩ <;>
        simp only [ScriptedShadersBinDumpOwner.mkLoaded, ScriptedShadersBinDumpOwner.getDump,
          ScriptedShadersBinDumpOwner.getDumpV2, ScriptedShadersBinDumpOwner.getDumpV3, ht] <;>
        simp
    · right
      left
      refine ⟨?_, ?_, ?_⟩ <;>
        simp only [ScriptedShadersBinDumpOwner.mkLoaded, ScriptedShadersBinDumpOwner.getDump,
          ScriptedShadersBinDumpOwner.getDumpV2, ScriptedShadersBinDumpOwner.getDumpV3, ht] <;>
        simp
    · right
      right
      refine ⟨?_, ?_, ?_⟩ <;>
        simp only [ScriptedShadersBinDumpOwner.mkLoaded, ScriptedShadersBinDumpOwner.getDump,
          ScriptedShadersBinDumpOwner.getDumpV2, ScriptedShadersBinDumpOwner.getDumpV3, ht] <;>
        simp
  · simp at h

/-- C6 witness: a successful version-1 load activates exactly the base view
and the other accessors return null. -/
theorem load_activates_exactly_one_view_witness :
    ((ScriptedShadersBinDumpOwner.mkLoaded [1, 4, 0, 0] 1).getDump.isSome = true ∧
      (ScriptedShadersBinDumpOwner.mkLoaded [1, 4, 0, 0] 1).getDumpV2 = none ∧
      (ScriptedShadersBinDumpOwner.mkLoaded [1, 4, 0, 0] 1).getDumpV3 = none) ∨
    ((ScriptedShadersBinDumpOwner.mkLoaded [1, 4, 0, 0] 1).getDump = none ∧
      (ScriptedShadersBinDumpOwner.mkLoaded [1, 4, 0, 0] 1).getDumpV2.isSome = true ∧
      (ScriptedShadersBinDumpOwner.mkLoaded [1, 4, 0, 0] 1).getDumpV3 = none) ∨
    ((ScriptedShadersBinDumpOwner.mkLoaded [1, 4, 0, 0] 1).getDump = none ∧
      (ScriptedShadersBinDumpOwner.mkLoaded [1, 4, 0, 0] 1).getDumpV2 = none ∧
      (ScriptedShadersBinDumpOwner.mkLoaded [1, 4, 0, 0] 1).getDumpV3.isSome = true) :=
  load_activates_exactly_one_view [1, 4, 0, 0] 4
    (ScriptedShadersBinDumpOwner.mkLoaded [1, 4, 0, 0] 1) (by decide)

/-- C7: After `clear()` on any owner state, `getDumpSize()` is `0`, all three
version accessors return null rather than dangle, and the decompression
cache holds no entries. -/
theorem clear_resets_owner (s : ScriptedShadersBinDumpOwner) :
    s.clear.getDumpSize = 0 ∧ s.clear.getDump = none ∧ s.clear.getDumpV2 = none ∧
    s.clear.getDumpV3 = none ∧ s.clear.cachedEntries = [] :=
  ⟨rfl, rfl, rfl, rfl, rfl⟩

/-- C8: In the code-type encoding, compute shares the pixel slot:
`ShaderCodeType.COMPUTE` equals `ShaderCodeType.PIXEL`, so `getCode` with
`COMPUTE` is the very same operation as `getCode` with `PIXEL` on every dump,
cache state and id, returning identical bytecode. -/
theorem compute_shares_pixel_slot :
    ShaderCodeType.COMPUTE = ShaderCodeType.PIXEL ∧
    ∀ (d : ShadersDump) (c : LruCache DecompressedGroup) (id : Nat),
      getCode d c id ShaderCodeType.COMPUTE = getCode d c id ShaderCodeType.PIXEL :=
  ⟨rfl, fun _ _ _ => rfl⟩

/-- C10: For every owner state, `operator->` and `getDump` return the same
pointer — both yield the base-version view `mShaderDump`. -/
theorem arrow_agrees_with_getDump (s : ScriptedShadersBinDumpOwner) :
    s.arrowAccess = s.getDump ∧ s.arrowAccess = s.mShaderDump :=
  ⟨rfl, rfl⟩

end ShadersBinaryDump
